import Mathlib

/-!
Shallow embedding of the transaction-concurrency core of the repository:
`src/src/tx/oracle.rs` (transaction Oracle) and `src/fjall/src/keyspace.rs`
(Keyspace sequence counter).  Machine integers (`u64`) are modelled as `Nat`;
the one place where wrap-around is reachable — the subtraction
`next_txn_ts - 1` in `read_ts` — is modelled exactly as the release-mode
wrapping subtraction (see `u64SubOne`).  Counter increments are modelled as
unbounded `Nat` addition: reaching the `u64` increment overflow would take
2^64 operations, while the subtraction underflow is reachable immediately.
Rust `Result` error paths that come from lock poisoning or watermark-channel
shutdown are concurrency conditions outside the embedded state; the `assert!`
statements of the source are modelled as `Option`: `none` means an assertion
failure (a panic).
-/

/-- A committed transaction record (`CommittedTxn` in `oracle.rs`): a commit
timestamp together with the fingerprint of the writes made at it.  The
conflict-checker type `C` is the generic parameter of the source. -/
structure CommittedTxn (C : Type) where
  ts : Nat
  conflict_manager : C
deriving DecidableEq, Repr

/-- Result of `new_commit_ts` (`CreateCommitTimestampResult` in `oracle.rs`). -/
inductive CreateCommitTimestampResult (C : Type) where
  | Timestamp (ts : Nat)
  | Conflict (fp : Option C)
deriving DecidableEq, Repr

/-- Modelled from the spec: the `WaterMark` primitive of the external `wmark`
crate is not under `src/`; the spec describes its state as a mapping
`timestamp → begin-count/done-count` with a derived scalar `done_until`.
We record the two event streams as lists of timestamps. -/
structure WaterMark where
  begins : List Nat
  dones : List Nat
deriving DecidableEq, Repr

/-- Number of `begin(t)` events received for timestamp `t`. -/
def WaterMark.begCt (w : WaterMark) (t : Nat) : Nat := w.begins.count t

/-- Number of `done(t)` events received for timestamp `t`. -/
def WaterMark.donCt (w : WaterMark) (t : Nat) : Nat := w.dones.count t

/-- Timestamps that have been begun but not fully retired. -/
def WaterMark.undone (w : WaterMark) : List Nat :=
  w.begins.filter (fun t => decide (w.donCt t < w.begCt t))

/-- Largest timestamp ever begun (0 when none was). -/
def WaterMark.maxBegun (w : WaterMark) : Nat := w.begins.foldr max 0

/-- Modelled from the spec: `done_until()` is the largest contiguous frontier
fully retired — the largest `T` such that every timestamp `≤ T` is done.
If some begun timestamp is still pending this is (minimum pending) - 1,
otherwise it is the largest begun timestamp. -/
def WaterMark.done_until (w : WaterMark) : Nat :=
  w.undone.foldr min (w.maxBegun + 1) - 1

/-- Modelled from the spec: `begin(t)` registers `t` as pending. -/
def WaterMark.wmBegin (w : WaterMark) (t : Nat) : WaterMark :=
  { w with begins := w.begins ++ [t] }

/-- Modelled from the spec: `done(t)` retires one pending registration of `t`. -/
def WaterMark.wmDone (w : WaterMark) (t : Nat) : WaterMark :=
  { w with dones := w.dones ++ [t] }

/-- The fields of `OracleInner` in `oracle.rs`. -/
structure OracleInner (C : Type) where
  next_txn_ts : Nat
  last_cleanup_ts : Nat
  committed_txns : List (CommittedTxn C)
deriving DecidableEq, Repr

/-- The `Oracle` of `oracle.rs`: the mutex-protected inner state plus the two
watermarks.  The mutexes themselves and the `Closer` carry no embedded state. -/
structure Oracle (C : Type) where
  inner : OracleInner C
  read_mark : WaterMark
  txn_mark : WaterMark
deriving DecidableEq, Repr

/-- `Oracle::new`: seeds `next_txn_ts`, zero cleanup floor, empty committed
list, fresh watermarks. -/
def Oracle.new (C : Type) (next_txn_ts : Nat) : Oracle C :=
  { inner := { next_txn_ts := next_txn_ts, last_cleanup_ts := 0, committed_txns := [] },
    read_mark := { begins := [], dones := [] },
    txn_mark := { begins := [], dones := [] } }

/-- The conflict-scan loop at the top of `new_commit_ts`: records with
`ts <= read_ts` are skipped; the first record with `ts > read_ts` whose
fingerprint conflicts makes the scan abort with `true`. -/
def conflictScan {C : Type} (hc : C → C → Bool) (read_ts : Nat) (conflict_manager : C) :
    List (CommittedTxn C) → Bool
  | [] => false
  | committed_txn :: rest =>
    if committed_txn.ts ≤ read_ts then conflictScan hc read_ts conflict_manager rest
    else if hc conflict_manager committed_txn.conflict_manager then true
    else conflictScan hc read_ts conflict_manager rest

/-- Number of committed records the scan loop visits before returning
(instrumentation of the same loop: on a conflict the loop returns early). -/
def scanExamined {C : Type} (hc : C → C → Bool) (read_ts : Nat) (conflict_manager : C) :
    List (CommittedTxn C) → Nat
  | [] => 0
  | committed_txn :: rest =>
    if committed_txn.ts ≤ read_ts then 1 + scanExamined hc read_ts conflict_manager rest
    else if hc conflict_manager committed_txn.conflict_manager then 1
    else 1 + scanExamined hc read_ts conflict_manager rest

/-- `Oracle::cleanup_committed_transactions`.  `none` models the failure of
`assert!(max_read_ts >= inner.last_cleanup_ts)`.  When the watermark floor
advanced, the floor is recorded and `retain(|txn| txn.ts > max_read_ts)`
keeps only the records above it. -/
def Oracle.cleanup_committed_transactions {C : Type} (o : Oracle C)
    (detect_conflicts : Bool) : Option (Oracle C) :=
  if !detect_conflicts then some o
  else
    let max_read_ts := o.read_mark.done_until
    if max_read_ts < o.inner.last_cleanup_ts then none
    else if max_read_ts = o.inner.last_cleanup_ts then some o
    else some { o with inner := { o.inner with
      last_cleanup_ts := max_read_ts,
      committed_txns := o.inner.committed_txns.filter
        (fun txn => decide (max_read_ts < txn.ts)) } }

/-- `Oracle::new_commit_ts`.  The steps of the source, in order: conflict
scan (early `Ok(Conflict)` return), release of the read mark guarded by the
caller's `done_read` flag, cleanup, allocation `ts = next_txn_ts; next += 1`
with `txn_mark.begin(ts)`, the `assert!(ts >= inner.last_cleanup_ts)`
(modelled before the allocation writes: the assert reads only `ts` and
`last_cleanup_ts`, which the allocation does not change, and a failed assert
panics), and the unconditional push of the committed record.  Returns the
result, the oracle state, and the value of the `done_read` flag. -/
def Oracle.new_commit_ts {C : Type} (hc : C → C → Bool) (o : Oracle C)
    (done_read : Bool) (read_ts : Nat) (conflict_manager : C) :
    Option (CreateCommitTimestampResult C × Oracle C × Bool) :=
  if conflictScan hc read_ts conflict_manager o.inner.committed_txns then
    some (CreateCommitTimestampResult.Conflict (some conflict_manager), o, done_read)
  else
    let o1 := if done_read then o else { o with read_mark := o.read_mark.wmDone read_ts }
    match o1.cleanup_committed_transactions true with
    | none => none
    | some o2 =>
      let ts := o2.inner.next_txn_ts
      if ts < o2.inner.last_cleanup_ts then none
      else
        some (CreateCommitTimestampResult.Timestamp ts,
          { o2 with
            inner := { o2.inner with
              next_txn_ts := ts + 1,
              committed_txns := o2.inner.committed_txns ++
                [{ ts := ts, conflict_manager := conflict_manager }] },
            txn_mark := o2.txn_mark.wmBegin ts },
          true)

/-- The `u64` wrapping subtraction `n - 1` as compiled in release mode:
exact for every value a `u64` can hold (`n < 2^64`). -/
def u64SubOne (n : Nat) : Nat := if n = 0 then 2 ^ 64 - 1 else n - 1

/-- The watermark calls `read_ts` makes, in program order. -/
inductive WMCall where
  | readBegin (t : Nat)
  | txnWait (t : Nat)
deriving DecidableEq, Repr

/-- `Oracle::read_ts`: under the inner lock compute `read_ts = next_txn_ts - 1`,
register it with `read_mark.begin`, then block on
`txn_mark.wait_for_mark(read_ts)` (a pure wait: no state change).  Returns the
value, the state, and the ordered trace of watermark calls made. -/
def Oracle.read_ts {C : Type} (o : Oracle C) : Nat × Oracle C × List WMCall :=
  let read_ts := u64SubOne o.inner.next_txn_ts
  (read_ts, { o with read_mark := o.read_mark.wmBegin read_ts },
   [WMCall.readBegin read_ts, WMCall.txnWait read_ts])

/-- `Oracle::increment_next_ts`. -/
def Oracle.increment_next_ts {C : Type} (o : Oracle C) : Oracle C :=
  { o with inner := { o.inner with next_txn_ts := o.inner.next_txn_ts + 1 } }

/-- `Oracle::done_commit`: `txn_mark.done(cts)`. -/
def Oracle.done_commit {C : Type} (o : Oracle C) (cts : Nat) : Oracle C :=
  { o with txn_mark := o.txn_mark.wmDone cts }

/-- The operations a caller can invoke on a live Oracle. -/
inductive OracleOp (C : Type) where
  | opReadTs
  | opNewCommitTs (done_read : Bool) (read_ts : Nat) (conflict_manager : C)
  | opIncrementNextTs
  | opDoneCommit (cts : Nat)
deriving DecidableEq, Repr

/-- One Oracle operation: `none` models a panic (failed `assert!`); otherwise
the next state together with the commit timestamp emitted, when the operation
was a successful `new_commit_ts`. -/
def stepOracle {C : Type} (hc : C → C → Bool) (o : Oracle C) :
    OracleOp C → Option (Oracle C × Option Nat)
  | OracleOp.opReadTs => some ((o.read_ts).2.1, none)
  | OracleOp.opNewCommitTs dr rts fp =>
    match o.new_commit_ts hc dr rts fp with
    | none => none
    | some (CreateCommitTimestampResult.Timestamp ts, o', _) => some (o', some ts)
    | some (CreateCommitTimestampResult.Conflict _, o', _) => some (o', none)
  | OracleOp.opIncrementNextTs => some (o.increment_next_ts, none)
  | OracleOp.opDoneCommit cts => some (o.done_commit cts, none)

/-- Run a sequence of operations, collecting the commit timestamps of the
successful `new_commit_ts` calls in completion order.  A panic stops the run. -/
def runOps {C : Type} (hc : C → C → Bool) (o : Oracle C) :
    List (OracleOp C) → Oracle C × List Nat
  | [] => (o, [])
  | op :: rest =>
    match stepOracle hc o op with
    | none => (o, [])
    | some (o', emitted) =>
      let r := runOps hc o' rest
      (r.1, emitted.toList ++ r.2)

/-- States reachable from a freshly constructed Oracle. -/
inductive ReachableOracle {C : Type} (hc : C → C → Bool) (n0 : Nat) : Oracle C → Prop where
  | init : ReachableOracle hc n0 (Oracle.new C n0)
  | step {o o' : Oracle C} {op : OracleOp C} {e : Option Nat} :
      ReachableOracle hc n0 o → stepOracle hc o op = some (o', e) →
      ReachableOracle hc n0 o'

/-- Modelled from the spec: the no-op conflict checker of the design notes,
"always reports no conflict". -/
def noopHasConflict {C : Type} : C → C → Bool := fun _ _ => false

/-- An LSM tree as the keyspace sees it (external `lsm_tree` crate): the only
observable consumed by `keyspace.rs` is `get_next_seqno`. -/
structure LsmTree where
  next_seqno : Nat
deriving DecidableEq, Repr

/-- `PartitionHandle` as returned by `open_partition` (the keyspace back
reference carries no further state here). -/
structure PartitionHandle where
  tree : LsmTree
deriving DecidableEq, Repr

/-- The state of `KeyspaceInner` relevant to the sequence counter: the
partition map and the `SequenceNumberCounter` (an atomic `u64`). -/
structure KeyspaceInner where
  partitions : List (String × LsmTree)
  seqno : Nat
deriving DecidableEq, Repr

/-- Atomic `fetch_max` on the sequence counter: the counter becomes the
maximum of its value and the argument. -/
def seqnoFetchMax (seqno v : Nat) : Nat := max seqno v

/-- `Keyspace::open_partition`: a cached partition is returned as is; an
uncached one is opened (the tree the storage engine yields is the `opened`
argument) and the keyspace counter is raised with `fetch_max` by the tree's
recovered `get_next_seqno`.  The source does not insert the opened tree into
the map. -/
def Keyspace.open_partition (ks : KeyspaceInner) (nm : String) (opened : LsmTree) :
    KeyspaceInner × PartitionHandle :=
  match ks.partitions.lookup nm with
  | some tree => (ks, { tree := tree })
  | none =>
    let tree_next_seqno := opened.next_seqno
    ({ ks with seqno := seqnoFetchMax ks.seqno tree_next_seqno }, { tree := opened })

/-- `Keyspace::recover`: empty partition map and the `Default` sequence
counter, which is 0 — no partition is consulted. -/
def Keyspace.recover : KeyspaceInner :=
  { partitions := [], seqno := 0 }

example : conflictScan noopHasConflict 0 () [⟨1, ()⟩] = false := by decide

example : WaterMark.done_until ⟨[3], []⟩ = 2 := by decide

example : WaterMark.done_until ⟨[3], [3]⟩ = 3 := by decide

example : WaterMark.done_until ⟨[], []⟩ = 0 := by decide

theorem foldr_min_le_init (l : List Nat) (d : Nat) : l.foldr min d ≤ d := by
  induction l with
  | nil => exact le_refl d
  | cons a l ih => exact le_trans (min_le_right a _) ih

theorem foldr_min_le_mem (l : List Nat) (d x : Nat) (hx : x ∈ l) : l.foldr min d ≤ x := by
  induction l with
  | nil => cases hx
  | cons a l ih =>
    rcases List.mem_cons.mp hx with h | h
    · subst h; exact min_le_left _ _
    · exact le_trans (min_le_right a _) (ih h)

theorem le_foldr_min (l : List Nat) (d b : Nat) (hd : b ≤ d) (h : ∀ x ∈ l, b ≤ x) :
    b ≤ l.foldr min d := by
  induction l with
  | nil => exact hd
  | cons a l ih =>
    exact le_min (h a (List.mem_cons_self a l))
      (ih (fun x hx => h x (List.mem_cons_of_mem a hx)))

theorem foldr_min_mem_or (l : List Nat) (d : Nat) :
    l.foldr min d = d ∨ l.foldr min d ∈ l := by
  induction l with
  | nil => exact Or.inl rfl
  | cons a l ih =>
    rcases le_total a (l.foldr min d) with h | h
    · right
      have hm : List.foldr min d (a :: l) = a := by
        simp only [List.foldr_cons]; exact min_eq_left h
      rw [hm]; exact List.mem_cons_self a l
    · have hm : List.foldr min d (a :: l) = l.foldr min d := by
        simp only [List.foldr_cons]; exact min_eq_right h
      rcases ih with h1 | h1
      · left; rw [hm, h1]
      · right; rw [hm]; exact List.mem_cons_of_mem a h1

theorem foldr_min_subset (l l' : List Nat) (d : Nat) (hsub : ∀ x ∈ l', x ∈ l) :
    l.foldr min d ≤ l'.foldr min d := by
  rcases foldr_min_mem_or l' d with h | h
  · rw [h]; exact foldr_min_le_init l d
  · exact foldr_min_le_mem l d _ (hsub _ h)

theorem le_foldr_max (l : List Nat) (x : Nat) (hx : x ∈ l) : x ≤ l.foldr max 0 := by
  induction l with
  | nil => cases hx
  | cons a l ih =>
    rcases List.mem_cons.mp hx with h | h
    · subst h; exact le_max_left _ _
    · exact le_trans (ih h) (le_max_right a _)

theorem foldr_max_lt (l : List Nat) (n : Nat) (hn : 0 < n) (h : ∀ x ∈ l, x < n) :
    l.foldr max 0 < n := by
  induction l with
  | nil => exact hn
  | cons a l ih =>
    exact max_lt (h a (List.mem_cons_self a l))
      (ih fun x hx => h x (List.mem_cons_of_mem a hx))

theorem WaterMark.mem_undone {w : WaterMark} {x : Nat} :
    x ∈ w.undone ↔ x ∈ w.begins ∧ w.donCt x < w.begCt x := by
  simp [WaterMark.undone, List.mem_filter]

theorem WaterMark.done_until_le_maxBegun (w : WaterMark) : w.done_until ≤ w.maxBegun := by
  have h := foldr_min_le_init w.undone (w.maxBegun + 1)
  unfold WaterMark.done_until
  omega

theorem WaterMark.done_until_lt (w : WaterMark) (n : Nat) (h1 : 1 ≤ n)
    (hA : ∀ t ∈ w.begins, t < n) : w.done_until < n := by
  have h2 : w.maxBegun < n := by
    have := foldr_max_lt w.begins n h1 hA
    simpa [WaterMark.maxBegun] using this
  exact lt_of_le_of_lt w.done_until_le_maxBegun h2

theorem WaterMark.begCt_wmDone (w : WaterMark) (t x : Nat) :
    (w.wmDone t).begCt x = w.begCt x := rfl

theorem WaterMark.donCt_wmDone_ge (w : WaterMark) (t x : Nat) :
    w.donCt x ≤ (w.wmDone t).donCt x := by
  simp only [WaterMark.donCt, WaterMark.wmDone, List.count_append]
  omega

theorem WaterMark.undone_wmDone_sub (w : WaterMark) (t : Nat) :
    ∀ x ∈ (w.wmDone t).undone, x ∈ w.undone := by
  intro x hx
  rcases WaterMark.mem_undone.mp hx with ⟨hb, hlt⟩
  have h1 := w.donCt_wmDone_ge t x
  have h2 : (w.wmDone t).begCt x = w.begCt x := rfl
  exact WaterMark.mem_undone.mpr ⟨hb, by omega⟩

theorem WaterMark.done_until_wmDone_ge (w : WaterMark) (t : Nat) :
    w.done_until ≤ (w.wmDone t).done_until := by
  have hM : (w.wmDone t).maxBegun = w.maxBegun := rfl
  have hs := foldr_min_subset w.undone ((w.wmDone t).undone) (w.maxBegun + 1)
    (w.undone_wmDone_sub t)
  unfold WaterMark.done_until
  rw [hM]
  omega

theorem WaterMark.done_until_wmBegin_ge (w : WaterMark) (n lc : Nat)
    (h1 : 1 ≤ n)
    (hB : lc ≤ w.done_until) (hE : lc = 0 ∨ lc + 2 ≤ n) :
    lc ≤ (w.wmBegin (n - 1)).done_until := by
  rcases Nat.eq_zero_or_pos lc with h0 | hpos
  · simp [h0]
  · have hE2 : lc + 2 ≤ n := by
      rcases hE with h | h
      · omega
      · exact h
    have hF : lc + 1 ≤ w.undone.foldr min (w.maxBegun + 1) := by
      have hle := hB
      unfold WaterMark.done_until at hle
      omega
    have hmem : ∀ x ∈ (w.wmBegin (n - 1)).undone, lc + 1 ≤ x := by
      intro x hx
      have hxb : x ∈ (w.wmBegin (n - 1)).begins := (WaterMark.mem_undone.mp hx).1
      have hxb2 : x ∈ w.begins ∨ x = n - 1 := by
        simpa [WaterMark.wmBegin] using hxb
      by_cases hxe : x = n - 1
      · omega
      · rcases hxb2 with hxw | hxw
        · have hcond := (WaterMark.mem_undone.mp hx).2
          have hbe : (w.wmBegin (n - 1)).begCt x = w.begCt x := by
            simp [WaterMark.begCt, WaterMark.wmBegin, List.count_append,
              List.count_singleton', hxe]
          have hde : (w.wmBegin (n - 1)).donCt x = w.donCt x := rfl
          have hux : x ∈ w.undone := WaterMark.mem_undone.mpr ⟨hxw, by omega⟩
          have := foldr_min_le_mem w.undone (w.maxBegun + 1) x hux
          omega
        · exact absurd hxw hxe
    have hd2 : lc + 1 ≤ (w.wmBegin (n - 1)).maxBegun + 1 := by
      have hm : n - 1 ∈ (w.wmBegin (n - 1)).begins := by simp [WaterMark.wmBegin]
      have := le_foldr_max _ _ hm
      have hv : n - 1 ≤ (w.wmBegin (n - 1)).maxBegun := by
        simpa [WaterMark.maxBegun] using this
      omega
    have hall := le_foldr_min ((w.wmBegin (n - 1)).undone)
      ((w.wmBegin (n - 1)).maxBegun + 1) (lc + 1) hd2 hmem
    unfold WaterMark.done_until
    omega

theorem cleanup_eq {C : Type} (o : Oracle C) :
    o.cleanup_committed_transactions true =
      if o.read_mark.done_until < o.inner.last_cleanup_ts then none
      else if o.read_mark.done_until = o.inner.last_cleanup_ts then some o
      else some { o with inner := { o.inner with
        last_cleanup_ts := o.read_mark.done_until,
        committed_txns := o.inner.committed_txns.filter
          (fun txn => decide (o.read_mark.done_until < txn.ts)) } } := rfl

theorem cleanup_some_spec {C : Type} {o o' : Oracle C}
    (h : o.cleanup_committed_transactions true = some o') :
    o'.read_mark = o.read_mark ∧ o'.txn_mark = o.txn_mark ∧
    o'.inner.next_txn_ts = o.inner.next_txn_ts ∧
    o.inner.last_cleanup_ts ≤ o'.inner.last_cleanup_ts ∧
    o'.inner.last_cleanup_ts ≤ o.read_mark.done_until := by
  rw [cleanup_eq] at h
  by_cases h1 : o.read_mark.done_until < o.inner.last_cleanup_ts
  · rw [if_pos h1] at h; cases h
  · rw [if_neg h1] at h
    by_cases h2 : o.read_mark.done_until = o.inner.last_cleanup_ts
    · rw [if_pos h2] at h
      rw [Option.some_inj] at h
      subst h
      exact ⟨rfl, rfl, rfl, le_refl _, by omega⟩
    · rw [if_neg h2] at h
      rw [Option.some_inj] at h
      subst h
      refine ⟨rfl, rfl, rfl, ?_, ?_⟩
      · show o.inner.last_cleanup_ts ≤ o.read_mark.done_until
        omega
      · show o.read_mark.done_until ≤ o.read_mark.done_until
        exact le_refl _

theorem cleanup_isSome {C : Type} {o : Oracle C}
    (h : o.inner.last_cleanup_ts ≤ o.read_mark.done_until) :
    ∃ o', o.cleanup_committed_transactions true = some o' := by
  rw [cleanup_eq]
  rw [if_neg (by omega)]
  by_cases h2 : o.read_mark.done_until = o.inner.last_cleanup_ts
  · rw [if_pos h2]; exact ⟨o, rfl⟩
  · rw [if_neg h2]; exact ⟨_, rfl⟩

theorem new_commit_ts_eq {C : Type} (hc : C → C → Bool) (o : Oracle C) (dr : Bool)
    (rts : Nat) (fp : C) :
    o.new_commit_ts hc dr rts fp =
      if conflictScan hc rts fp o.inner.committed_txns then
        some (CreateCommitTimestampResult.Conflict (some fp), o, dr)
      else
        match (if dr then o else
            { o with read_mark := o.read_mark.wmDone rts }).cleanup_committed_transactions
            true with
        | none => none
        | some o2 =>
          if o2.inner.next_txn_ts < o2.inner.last_cleanup_ts then none
          else
            some (CreateCommitTimestampResult.Timestamp o2.inner.next_txn_ts,
              { o2 with
                inner := { o2.inner with
                  next_txn_ts := o2.inner.next_txn_ts + 1,
                  committed_txns := o2.inner.committed_txns ++
                    [{ ts := o2.inner.next_txn_ts, conflict_manager := fp }] },
                txn_mark := o2.txn_mark.wmBegin o2.inner.next_txn_ts },
              true) := rfl

theorem releaseRead_read_mark {C : Type} (o : Oracle C) (dr : Bool) (rts : Nat) :
    (if dr then o else { o with read_mark := o.read_mark.wmDone rts }).read_mark
      = (if dr then o.read_mark else o.read_mark.wmDone rts) := by
  cases dr <;> rfl

theorem releaseRead_inner {C : Type} (o : Oracle C) (dr : Bool) (rts : Nat) :
    (if dr then o else { o with read_mark := o.read_mark.wmDone rts }).inner = o.inner := by
  cases dr <;> rfl

theorem releaseRead_txn_mark {C : Type} (o : Oracle C) (dr : Bool) (rts : Nat) :
    (if dr then o else { o with read_mark := o.read_mark.wmDone rts }).txn_mark
      = o.txn_mark := by
  cases dr <;> rfl

theorem new_commit_ts_of_conflict {C : Type} {hc : C → C → Bool} {o : Oracle C}
    {dr : Bool} {rts : Nat} {fp : C}
    (h : conflictScan hc rts fp o.inner.committed_txns = true) :
    o.new_commit_ts hc dr rts fp
      = some (CreateCommitTimestampResult.Conflict (some fp), o, dr) := by
  rw [new_commit_ts_eq, if_pos h]

theorem new_commit_ts_conflict_spec {C : Type} {hc : C → C → Bool} {o o' : Oracle C}
    {dr dr' : Bool} {rts : Nat} {fp : C} {f : Option C}
    (h : o.new_commit_ts hc dr rts fp
      = some (CreateCommitTimestampResult.Conflict f, o', dr')) :
    conflictScan hc rts fp o.inner.committed_txns = true ∧
    f = some fp ∧ o' = o ∧ dr' = dr := by
  rw [new_commit_ts_eq] at h
  by_cases hs : conflictScan hc rts fp o.inner.committed_txns
  · rw [if_pos hs] at h
    simp only [Option.some_inj, Prod.mk.injEq,
      CreateCommitTimestampResult.Conflict.injEq] at h
    obtain ⟨hf, ho', hdr⟩ := h
    exact ⟨hs, hf.symm, ho'.symm, hdr.symm⟩
  · rw [if_neg hs] at h
    cases hcl : (if dr then o else
        { o with read_mark := o.read_mark.wmDone rts }).cleanup_committed_transactions
        true with
    | none => rw [hcl] at h; cases h
    | some o2 =>
      rw [hcl] at h
      simp only [] at h
      by_cases ha : o2.inner.next_txn_ts < o2.inner.last_cleanup_ts
      · rw [if_pos ha] at h; cases h
      · rw [if_neg ha] at h
        simp at h

theorem new_commit_ts_timestamp_spec {C : Type} {hc : C → C → Bool} {o o' : Oracle C}
    {dr dr' : Bool} {rts ts : Nat} {fp : C}
    (h : o.new_commit_ts hc dr rts fp
      = some (CreateCommitTimestampResult.Timestamp ts, o', dr')) :
    ts = o.inner.next_txn_ts ∧ dr' = true ∧
    o'.inner.next_txn_ts = ts + 1 ∧
    o'.read_mark = (if dr then o.read_mark else o.read_mark.wmDone rts) ∧
    o'.txn_mark = o.txn_mark.wmBegin ts ∧
    o.inner.last_cleanup_ts ≤ o'.inner.last_cleanup_ts ∧
    o'.inner.last_cleanup_ts
      ≤ (if dr then o.read_mark else o.read_mark.wmDone rts).done_until := by
  rw [new_commit_ts_eq] at h
  by_cases hs : conflictScan hc rts fp o.inner.committed_txns
  · rw [if_pos hs] at h
    simp at h
  · rw [if_neg hs] at h
    cases hcl : (if dr then o else
        { o with read_mark := o.read_mark.wmDone rts }).cleanup_committed_transactions
        true with
    | none => rw [hcl] at h; cases h
    | some o2 =>
      rw [hcl] at h
      simp only [] at h
      by_cases ha : o2.inner.next_txn_ts < o2.inner.last_cleanup_ts
      · rw [if_pos ha] at h; cases h
      · rw [if_neg ha] at h
        simp only [Option.some_inj, Prod.mk.injEq,
          CreateCommitTimestampResult.Timestamp.injEq] at h
        obtain ⟨hts, ho', hdr⟩ := h
        subst ho'
        obtain ⟨hrm, htm, hnx, hlc1, hlc2⟩ := cleanup_some_spec hcl
        rw [releaseRead_read_mark] at hrm hlc2
        rw [releaseRead_txn_mark] at htm
        rw [releaseRead_inner] at hnx hlc1
        refine ⟨?_, hdr.symm, ?_, ?_, ?_, ?_, ?_⟩
        · omega
        · show o2.inner.next_txn_ts + 1 = ts + 1
          omega
        · exact hrm
        · show o2.txn_mark.wmBegin o2.inner.next_txn_ts = o.txn_mark.wmBegin ts
          rw [htm, hts]
        · exact hlc1
        · exact hlc2

theorem conflictScan_iff {C : Type} (hc : C → C → Bool) (rts : Nat) (fp : C)
    (l : List (CommittedTxn C)) :
    conflictScan hc rts fp l = true ↔
      ∃ r, r ∈ l ∧ rts < r.ts ∧ hc fp r.conflict_manager = true := by
  induction l with
  | nil => simp [conflictScan]
  | cons r rest ih =>
    by_cases h1 : r.ts ≤ rts
    · rw [show conflictScan hc rts fp (r :: rest) = conflictScan hc rts fp rest from by
        simp [conflictScan, h1]]
      rw [ih]
      constructor
      · rintro ⟨x, hx, h2, h3⟩
        exact ⟨x, List.mem_cons_of_mem r hx, h2, h3⟩
      · rintro ⟨x, hx, h2, h3⟩
        rcases List.mem_cons.mp hx with he | hm
        · subst he; omega
        · exact ⟨x, hm, h2, h3⟩
    · by_cases h2 : hc fp r.conflict_manager
      · rw [show conflictScan hc rts fp (r :: rest) = true from by
          simp [conflictScan, h1, h2]]
        simp only [true_iff]
        exact ⟨r, List.mem_cons_self r rest, by omega, h2⟩
      · rw [show conflictScan hc rts fp (r :: rest) = conflictScan hc rts fp rest from by
          simp [conflictScan, h1, h2]]
        rw [ih]
        constructor
        · rintro ⟨x, hx, h3, h4⟩
          exact ⟨x, List.mem_cons_of_mem r hx, h3, h4⟩
        · rintro ⟨x, hx, h3, h4⟩
          rcases List.mem_cons.mp hx with he | hm
          · subst he
            exact absurd h4 (by simp [h2])
          · exact ⟨x, hm, h3, h4⟩

theorem scanExamined_first_hit {C : Type} (hc : C → C → Bool) (rts : Nat) (fp : C)
    (l : List (CommittedTxn C)) (h : conflictScan hc rts fp l = true) :
    scanExamined hc rts fp l =
      l.findIdx (fun r => decide (rts < r.ts) && hc fp r.conflict_manager) + 1 := by
  induction l with
  | nil => simp [conflictScan] at h
  | cons r rest ih =>
    by_cases h1 : r.ts ≤ rts
    · have hscan : conflictScan hc rts fp rest = true := by
        simpa [conflictScan, h1] using h
      have hp : (decide (rts < r.ts) && hc fp r.conflict_manager) = false := by
        have : decide (rts < r.ts) = false := by simp; omega
        simp [this]
      rw [show scanExamined hc rts fp (r :: rest) = 1 + scanExamined hc rts fp rest from by
        simp [scanExamined, h1]]
      rw [List.findIdx_cons, hp, ih hscan]
      simp
      omega
    · by_cases h2 : hc fp r.conflict_manager
      · have hp : (decide (rts < r.ts) && hc fp r.conflict_manager) = true := by
          simp [h2]; omega
        rw [show scanExamined hc rts fp (r :: rest) = 1 from by
          simp [scanExamined, h1, h2]]
        rw [List.findIdx_cons, hp]
        simp
      · have hscan : conflictScan hc rts fp rest = true := by
          simpa [conflictScan, h1, h2] using h
        have hp : (decide (rts < r.ts) && hc fp r.conflict_manager) = false := by
          simp [h2]
        rw [show scanExamined hc rts fp (r :: rest) = 1 + scanExamined hc rts fp rest from by
          simp [scanExamined, h1, h2]]
        rw [List.findIdx_cons, hp, ih hscan]
        simp
        omega

/-- The inductive invariant of a well-started Oracle: the counter is positive,
every read registration is below the counter, the cleanup floor never exceeds
the reader watermark's floor, and a nonzero cleanup floor is at least two
below the counter. -/
def OracleInv {C : Type} (o : Oracle C) : Prop :=
  1 ≤ o.inner.next_txn_ts ∧
  (∀ t ∈ o.read_mark.begins, t < o.inner.next_txn_ts) ∧
  o.inner.last_cleanup_ts ≤ o.read_mark.done_until ∧
  (o.inner.last_cleanup_ts = 0 ∨ o.inner.last_cleanup_ts + 2 ≤ o.inner.next_txn_ts)

theorem inv_new {C : Type} (n0 : Nat) (h : 1 ≤ n0) : OracleInv (Oracle.new C n0) := by
  refine ⟨h, ?_, ?_, Or.inl rfl⟩
  · intro t ht
    simp [Oracle.new] at ht
  · exact Nat.zero_le _

theorem inv_step {C : Type} {hc : C → C → Bool} {o o' : Oracle C} {op : OracleOp C}
    {e : Option Nat} (hinv : OracleInv o) (h : stepOracle hc o op = some (o', e)) :
    OracleInv o' := by
  obtain ⟨h1, hA, hB, hE⟩ := hinv
  cases op with
  | opReadTs =>
    simp only [stepOracle, Option.some_inj, Prod.mk.injEq] at h
    obtain ⟨ho', he⟩ := h
    subst ho'
    have e1 : ((o.read_ts).2.1).inner = o.inner := rfl
    have e3 : ((o.read_ts).2.1).read_mark
        = o.read_mark.wmBegin (u64SubOne o.inner.next_txn_ts) := rfl
    have hu : u64SubOne o.inner.next_txn_ts = o.inner.next_txn_ts - 1 := by
      unfold u64SubOne
      rw [if_neg (by omega)]
    refine ⟨h1, ?_, ?_, hE⟩
    · intro t ht
      rw [e3, hu] at ht
      simp only [WaterMark.wmBegin, List.mem_append, List.mem_singleton] at ht
      rw [e1]
      rcases ht with ht | ht
      · exact hA t ht
      · omega
    · rw [e1, e3, hu]
      exact WaterMark.done_until_wmBegin_ge o.read_mark o.inner.next_txn_ts
        o.inner.last_cleanup_ts h1 hB hE
  | opNewCommitTs dr rts fp =>
    simp only [stepOracle] at h
    cases hn : o.new_commit_ts hc dr rts fp with
    | none => rw [hn] at h; cases h
    | some res =>
      obtain ⟨r, oo, dd⟩ := res
      cases r with
      | Conflict f =>
        rw [hn] at h
        simp only [Option.some_inj, Prod.mk.injEq] at h
        obtain ⟨ho', he⟩ := h
        subst ho'
        obtain ⟨hs, hf, hoo, hdd⟩ := new_commit_ts_conflict_spec hn
        rw [hoo]
        exact ⟨h1, hA, hB, hE⟩
      | Timestamp ts =>
        rw [hn] at h
        simp only [Option.some_inj, Prod.mk.injEq] at h
        obtain ⟨ho', he⟩ := h
        subst ho'
        obtain ⟨hts, hdd, hnx, hrm, htm, hlc1, hlc2⟩ := new_commit_ts_timestamp_spec hn
        have hbeg : oo.read_mark.begins = o.read_mark.begins := by
          rw [hrm]; cases dr <;> simp [WaterMark.wmDone]
        have hdu_lt : (if dr then o.read_mark else o.read_mark.wmDone rts).done_until
            < o.inner.next_txn_ts := by
          apply WaterMark.done_until_lt _ _ h1
          intro t ht
          apply hA
          revert ht
          cases dr <;> simp [WaterMark.wmDone]
        refine ⟨?_, ?_, ?_, ?_⟩
        · rw [hnx]; omega
        · intro t ht
          rw [hbeg] at ht
          have := hA t ht
          omega
        · rw [hrm]; exact hlc2
        · right
          rw [hnx, hts]
          omega
  | opIncrementNextTs =>
    simp only [stepOracle, Option.some_inj, Prod.mk.injEq] at h
    obtain ⟨ho', he⟩ := h
    subst ho'
    have e1 : (o.increment_next_ts).inner.next_txn_ts = o.inner.next_txn_ts + 1 := rfl
    have e2 : (o.increment_next_ts).inner.last_cleanup_ts = o.inner.last_cleanup_ts := rfl
    have e3 : (o.increment_next_ts).read_mark = o.read_mark := rfl
    refine ⟨?_, ?_, ?_, ?_⟩
    · rw [e1]; omega
    · intro t ht
      rw [e3] at ht
      rw [e1]
      have := hA t ht
      omega
    · rw [e2, e3]; exact hB
    · rw [e1, e2]
      rcases hE with h | h
      · exact Or.inl h
      · exact Or.inr (by omega)
  | opDoneCommit cts =>
    simp only [stepOracle, Option.some_inj, Prod.mk.injEq] at h
    obtain ⟨ho', he⟩ := h
    subst ho'
    exact ⟨h1, hA, hB, hE⟩

theorem inv_no_panic {C : Type} {hc : C → C → Bool} {o : Oracle C} (hinv : OracleInv o)
    (op : OracleOp C) : stepOracle hc o op ≠ none := by
  obtain ⟨h1, hA, hB, hE⟩ := hinv
  cases op with
  | opReadTs => simp [stepOracle]
  | opIncrementNextTs => simp [stepOracle]
  | opDoneCommit cts => simp [stepOracle]
  | opNewCommitTs dr rts fp =>
    by_cases hs : conflictScan hc rts fp o.inner.committed_txns = true
    · have hcf := @new_commit_ts_of_conflict C hc o dr rts fp hs
      simp [stepOracle, hcf]
    · have hs' : conflictScan hc rts fp o.inner.committed_txns = false := by
        simpa using hs
      have hdug : o.read_mark.done_until
          ≤ (if dr then o.read_mark else o.read_mark.wmDone rts).done_until := by
        cases dr
        · simpa using WaterMark.done_until_wmDone_ge o.read_mark rts
        · simp
      have hcls : ∃ o2, (if dr then o else
          { o with read_mark := o.read_mark.wmDone rts }).cleanup_committed_transactions
            true = some o2 := by
        apply cleanup_isSome
        rw [releaseRead_inner, releaseRead_read_mark]
        exact le_trans hB hdug
      obtain ⟨o2, hcl⟩ := hcls
      obtain ⟨hrm, htm, hnx, hlc1, hlc2⟩ := cleanup_some_spec hcl
      rw [releaseRead_read_mark] at hrm hlc2
      rw [releaseRead_inner] at hnx hlc1
      have hdu_lt : (if dr then o.read_mark else o.read_mark.wmDone rts).done_until
          < o.inner.next_txn_ts := by
        apply WaterMark.done_until_lt _ _ h1
        intro t ht
        apply hA
        revert ht
        cases dr <;> simp [WaterMark.wmDone]
      have hassert : ¬ (o2.inner.next_txn_ts < o2.inner.last_cleanup_ts) := by omega
      have hfull : o.new_commit_ts hc dr rts fp
          = some (CreateCommitTimestampResult.Timestamp o2.inner.next_txn_ts,
            { o2 with
              inner := { o2.inner with
                next_txn_ts := o2.inner.next_txn_ts + 1,
                committed_txns := o2.inner.committed_txns ++
                  [{ ts := o2.inner.next_txn_ts, conflict_manager := fp }] },
              txn_mark := o2.txn_mark.wmBegin o2.inner.next_txn_ts },
            true) := by
        rw [new_commit_ts_eq, if_neg (by simp [hs']), hcl]
        simp only []
        rw [if_neg hassert]
      simp [stepOracle, hfull]

theorem WaterMark.done_until_le_of_pending (w : WaterMark) (t : Nat)
    (h : w.donCt t < w.begCt t) : w.done_until ≤ t - 1 := by
  have hmem : t ∈ w.begins := by
    have hc : 0 < w.begins.count t := by
      unfold WaterMark.begCt at h
      omega
    exact List.count_pos_iff.mp hc
  have hu : t ∈ w.undone := WaterMark.mem_undone.mpr ⟨hmem, h⟩
  have := foldr_min_le_mem w.undone (w.maxBegun + 1) t hu
  unfold WaterMark.done_until
  omega

theorem step_next_mono {C : Type} {hc : C → C → Bool} {o o' : Oracle C} {op : OracleOp C}
    {e : Option Nat} (h : stepOracle hc o op = some (o', e)) :
    o.inner.next_txn_ts ≤ o'.inner.next_txn_ts ∧
    (∀ t, e = some t → t = o.inner.next_txn_ts ∧ o'.inner.next_txn_ts = t + 1) := by
  cases op with
  | opReadTs =>
    simp only [stepOracle, Option.some_inj, Prod.mk.injEq] at h
    obtain ⟨ho', he⟩ := h
    subst ho'
    subst he
    exact ⟨le_refl _, fun t ht => by cases ht⟩
  | opNewCommitTs dr rts fp =>
    simp only [stepOracle] at h
    cases hn : o.new_commit_ts hc dr rts fp with
    | none => rw [hn] at h; cases h
    | some res =>
      obtain ⟨r, oo, dd⟩ := res
      cases r with
      | Conflict f =>
        rw [hn] at h
        simp only [Option.some_inj, Prod.mk.injEq] at h
        obtain ⟨ho', he⟩ := h
        subst ho'
        subst he
        obtain ⟨hs, hf, hoo, hdd⟩ := new_commit_ts_conflict_spec hn
        rw [hoo]
        exact ⟨le_refl _, fun t ht => by cases ht⟩
      | Timestamp ts =>
        rw [hn] at h
        simp only [Option.some_inj, Prod.mk.injEq] at h
        obtain ⟨ho', he⟩ := h
        subst ho'
        subst he
        obtain ⟨hts, hdd, hnx, hrm, htm, hlc1, hlc2⟩ := new_commit_ts_timestamp_spec hn
        constructor
        · omega
        · intro t ht
          rw [Option.some_inj] at ht
          subst ht
          exact ⟨hts, hnx⟩
  | opIncrementNextTs =>
    simp only [stepOracle, Option.some_inj, Prod.mk.injEq] at h
    obtain ⟨ho', he⟩ := h
    subst ho'
    subst he
    have e1 : (o.increment_next_ts).inner.next_txn_ts = o.inner.next_txn_ts + 1 := rfl
    exact ⟨by omega, fun t ht => by cases ht⟩
  | opDoneCommit cts =>
    simp only [stepOracle, Option.some_inj, Prod.mk.injEq] at h
    obtain ⟨ho', he⟩ := h
    subst ho'
    subst he
    exact ⟨le_refl _, fun t ht => by cases ht⟩

theorem runOps_emitted_sorted {C : Type} (hc : C → C → Bool) (ops : List (OracleOp C)) :
    ∀ o : Oracle C, List.Sorted (· < ·) (runOps hc o ops).2 ∧
      (∀ t ∈ (runOps hc o ops).2, o.inner.next_txn_ts ≤ t) := by
  induction ops with
  | nil =>
    intro o
    constructor
    · simp [runOps]
    · simp [runOps]
  | cons op rest ih =>
    intro o
    cases hst : stepOracle hc o op with
    | none =>
      rw [show runOps hc o (op :: rest) = (o, []) from by simp [runOps, hst]]
      constructor <;> simp
    | some pr =>
      obtain ⟨o1, em⟩ := pr
      have hrun : runOps hc o (op :: rest)
          = ((runOps hc o1 rest).1, em.toList ++ (runOps hc o1 rest).2) := by
        simp [runOps, hst]
      obtain ⟨hmono, hemit⟩ := step_next_mono hst
      obtain ⟨hsorted, hlb⟩ := ih o1
      rw [hrun]
      cases em with
      | none =>
        simp only [Option.toList, List.nil_append]
        exact ⟨hsorted, fun t ht => le_trans hmono (hlb t ht)⟩
      | some t0 =>
        obtain ⟨ht0, hnext1⟩ := hemit t0 rfl
        simp only [Option.toList, List.singleton_append]
        constructor
        · rw [List.sorted_cons]
          refine ⟨?_, hsorted⟩
          intro b hb
          have := hlb b hb
          omega
        · intro t ht
          rcases List.mem_cons.mp ht with he | hm
          · omega
          · have := hlb t hm
            omega

/-- A two-record oracle used as a concrete witness state. -/
def oracleW : Oracle Unit :=
  ⟨⟨3, 0, [⟨1, ()⟩, ⟨2, ()⟩]⟩, ⟨[], []⟩, ⟨[], []⟩⟩

/-- A checker that always reports a conflict, for concrete witnesses. -/
def allConflict : Unit → Unit → Bool := fun _ _ => true

/-- C1: a call of `new_commit_ts` that returns `Ok` reports `Conflict` exactly
when some retained record with `commit_ts > read_ts` conflicts with the
caller's fingerprint; the scan stops at the first such record (it visits
exactly the records up to and including the first hit), and when every
retained record has `commit_ts ≤ read_ts` the result is never `Conflict`. -/
theorem new_commit_ts_conflict_detection {C : Type} (hc : C → C → Bool) (o : Oracle C)
    (dr : Bool) (rts : Nat) (fp : C) :
    ((∃ f o' dr', o.new_commit_ts hc dr rts fp
        = some (CreateCommitTimestampResult.Conflict f, o', dr')) ↔
      ∃ r, r ∈ o.inner.committed_txns ∧ rts < r.ts ∧ hc fp r.conflict_manager = true) ∧
    (conflictScan hc rts fp o.inner.committed_txns = true →
      scanExamined hc rts fp o.inner.committed_txns =
        o.inner.committed_txns.findIdx
          (fun r => decide (rts < r.ts) && hc fp r.conflict_manager) + 1) ∧
    ((∀ r ∈ o.inner.committed_txns, r.ts ≤ rts) →
      ∀ f o' dr', o.new_commit_ts hc dr rts fp
        ≠ some (CreateCommitTimestampResult.Conflict f, o', dr')) := by
  refine ⟨?_, ?_, ?_⟩
  · constructor
    · rintro ⟨f, o', dr', hcall⟩
      obtain ⟨hs, _, _, _⟩ := new_commit_ts_conflict_spec hcall
      exact (conflictScan_iff hc rts fp _).mp hs
    · intro hex
      exact ⟨some fp, o, dr,
        new_commit_ts_of_conflict ((conflictScan_iff hc rts fp _).mpr hex)⟩
  · exact scanExamined_first_hit hc rts fp _
  · intro hall f o' dr' hcall
    obtain ⟨hs, _, _, _⟩ := new_commit_ts_conflict_spec hcall
    obtain ⟨r, hr, hlt, _⟩ := (conflictScan_iff hc rts fp _).mp hs
    have := hall r hr
    omega

/-- Witness for C1: at a concrete oracle the record `ts = 2 > read_ts = 1`
conflicts and the scan visits both records (the first one is skipped). -/
theorem new_commit_ts_conflict_detection_witness :
    conflictScan allConflict 1 () oracleW.inner.committed_txns = true ∧
    scanExamined allConflict 1 () oracleW.inner.committed_txns =
      oracleW.inner.committed_txns.findIdx
        (fun r => decide (1 < r.ts) && allConflict () r.conflict_manager) + 1 :=
  ⟨by decide, (new_commit_ts_conflict_detection allConflict oracleW false 1 ()).2.1
    (by decide)⟩

/-- C2: every successful `new_commit_ts` hands out the current `next_txn_ts`
and leaves the counter one larger, and across any operation sequence the
emitted commit timestamps strictly increase in completion order. -/
theorem commit_timestamps_strictly_increase {C : Type} (hc : C → C → Bool) :
    (∀ (o o' : Oracle C) (dr dr' : Bool) (rts ts : Nat) (fp : C),
      o.new_commit_ts hc dr rts fp
          = some (CreateCommitTimestampResult.Timestamp ts, o', dr') →
        ts = o.inner.next_txn_ts ∧ o'.inner.next_txn_ts = ts + 1) ∧
    (∀ (o : Oracle C) (ops : List (OracleOp C)),
      List.Sorted (· < ·) (runOps hc o ops).2) := by
  constructor
  · intro o o' dr dr' rts ts fp h
    obtain ⟨hts, _, hnx, _⟩ := new_commit_ts_timestamp_spec h
    exact ⟨hts, hnx⟩
  · intro o ops
    exact (runOps_emitted_sorted hc ops o).1

/-- Witness for C2: two committing operations from a fresh oracle emit the
strictly increasing timestamps 1 then 2. -/
theorem commit_timestamps_strictly_increase_witness :
    List.Sorted (· < ·) (runOps noopHasConflict (Oracle.new Unit 1)
      [OracleOp.opNewCommitTs true 0 (), OracleOp.opNewCommitTs true 0 ()]).2 ∧
    (runOps noopHasConflict (Oracle.new Unit 1)
      [OracleOp.opNewCommitTs true 0 (), OracleOp.opNewCommitTs true 0 ()]).2 = [1, 2] :=
  ⟨(commit_timestamps_strictly_increase noopHasConflict).2 _ _, by decide⟩

/-- C4: `read_ts` computes `read_ts = next_txn_ts - 1` under the exclusive
state, registers it via `read_mark.begin` before the wait, then waits on
`txn_mark.wait_for_mark(read_ts)`, and returns that snapshot — the most
recently allocated commit position. -/
theorem read_ts_protocol {C : Type} (o : Oracle C) (h : 1 ≤ o.inner.next_txn_ts) :
    (o.read_ts).1 = o.inner.next_txn_ts - 1 ∧
    (o.read_ts).2.1
      = { o with read_mark := o.read_mark.wmBegin (o.inner.next_txn_ts - 1) } ∧
    (o.read_ts).2.2 = [WMCall.readBegin (o.inner.next_txn_ts - 1),
      WMCall.txnWait (o.inner.next_txn_ts - 1)] := by
  have hu : u64SubOne o.inner.next_txn_ts = o.inner.next_txn_ts - 1 := by
    unfold u64SubOne
    rw [if_neg (by omega)]
  refine ⟨?_, ?_, ?_⟩
  · show u64SubOne o.inner.next_txn_ts = _
    exact hu
  · show ({ o with read_mark := o.read_mark.wmBegin (u64SubOne o.inner.next_txn_ts) }
      : Oracle C) = _
    rw [hu]
  · show [WMCall.readBegin (u64SubOne o.inner.next_txn_ts),
      WMCall.txnWait (u64SubOne o.inner.next_txn_ts)] = _
    rw [hu]

/-- Witness for C4 at a fresh oracle with counter 5. -/
theorem read_ts_protocol_witness :
    1 ≤ (Oracle.new Unit 5).inner.next_txn_ts ∧
    (((Oracle.new Unit 5).read_ts).1 = (Oracle.new Unit 5).inner.next_txn_ts - 1 ∧
     ((Oracle.new Unit 5).read_ts).2.1
       = { (Oracle.new Unit 5) with read_mark := ((Oracle.new Unit 5).read_mark.wmBegin
           ((Oracle.new Unit 5).inner.next_txn_ts - 1)) } ∧
     ((Oracle.new Unit 5).read_ts).2.2
       = [WMCall.readBegin ((Oracle.new Unit 5).inner.next_txn_ts - 1),
          WMCall.txnWait ((Oracle.new Unit 5).inner.next_txn_ts - 1)]) :=
  ⟨by decide, read_ts_protocol (Oracle.new Unit 5) (by decide)⟩

/-- C5: on a detected conflict, `new_commit_ts` returns the caller's own
fingerprint inside an ordinary `Ok(Conflict(Some fp))`, and the attempt
aborts atomically: the whole oracle state (counter, cleanup floor, retained
list, both watermarks) and the `done_read` flag come back unchanged. -/
theorem conflict_aborts_atomically {C : Type} (hc : C → C → Bool) (o : Oracle C)
    (dr : Bool) (rts : Nat) (fp : C)
    (h : ∃ r, r ∈ o.inner.committed_txns ∧ rts < r.ts ∧ hc fp r.conflict_manager = true) :
    o.new_commit_ts hc dr rts fp
      = some (CreateCommitTimestampResult.Conflict (some fp), o, dr) :=
  new_commit_ts_of_conflict ((conflictScan_iff hc rts fp _).mpr h)

/-- Witness for C5 at a concrete conflicting oracle. -/
theorem conflict_aborts_atomically_witness :
    (∃ r, r ∈ oracleW.inner.committed_txns ∧ 1 < r.ts ∧
      allConflict () r.conflict_manager = true) ∧
    oracleW.new_commit_ts allConflict false 1 ()
      = some (CreateCommitTimestampResult.Conflict (some ()), oracleW, false) :=
  ⟨⟨⟨2, ()⟩, by decide, by decide, by decide⟩,
   conflict_aborts_atomically allConflict oracleW false 1 ()
     ⟨⟨2, ()⟩, by decide, by decide, by decide⟩⟩

/-- C10: `read_ts` has the unstated precondition `next_txn_ts ≥ 1`: above it
the subtraction is exact and the snapshot is `next_txn_ts - 1`; with the
counter at 0 the u64 subtraction wraps to `2^64 - 1`, which is not a valid
snapshot (it is not below the counter). -/
theorem read_ts_underflow_precondition :
    (∀ (C : Type) (o : Oracle C), 1 ≤ o.inner.next_txn_ts →
      (o.read_ts).1 = o.inner.next_txn_ts - 1) ∧
    ((Oracle.new Unit 0).read_ts).1 = 2 ^ 64 - 1 ∧
    ¬ ((Oracle.new Unit 0).read_ts).1 < (Oracle.new Unit 0).inner.next_txn_ts := by
  refine ⟨?_, by decide, by decide⟩
  intro C o h
  show u64SubOne o.inner.next_txn_ts = _
  unfold u64SubOne
  rw [if_neg (by omega)]

/-- Witness for C10 at a fresh oracle with counter 7. -/
theorem read_ts_underflow_precondition_witness :
    1 ≤ (Oracle.new Unit 7).inner.next_txn_ts ∧
    ((Oracle.new Unit 7).read_ts).1 = (Oracle.new Unit 7).inner.next_txn_ts - 1 :=
  ⟨by decide, read_ts_underflow_precondition.1 Unit (Oracle.new Unit 7) (by decide)⟩

/-- C3: during cleanup, a retained record is discarded exactly when the read
mark's `done_until` floor advanced past the last cleanup point and the
record's `ts` is at or below the new floor; a record whose `ts` is above the
floor always survives; and with a reader pinned at `read_ts = 3` (begun but
not done in `read_mark`) every record with `ts = 4, 5, 6` survives. -/
theorem cleanup_eviction_policy {C : Type} (o : Oracle C)
    (h : o.inner.last_cleanup_ts ≤ o.read_mark.done_until) :
    ∃ o', o.cleanup_committed_transactions true = some o' ∧
      (∀ r : CommittedTxn C, r ∈ o'.inner.committed_txns ↔
        (r ∈ o.inner.committed_txns ∧
          (o.inner.last_cleanup_ts < o.read_mark.done_until →
            o.read_mark.done_until < r.ts))) ∧
      (∀ r ∈ o.inner.committed_txns, o.read_mark.done_until < r.ts →
        r ∈ o'.inner.committed_txns) ∧
      (o.read_mark.donCt 3 < o.read_mark.begCt 3 →
        ∀ r ∈ o.inner.committed_txns, (r.ts = 4 ∨ r.ts = 5 ∨ r.ts = 6) →
          r ∈ o'.inner.committed_txns) := by
  by_cases h2 : o.read_mark.done_until = o.inner.last_cleanup_ts
  · refine ⟨o, ?_, ?_, ?_, ?_⟩
    · rw [cleanup_eq, if_neg (by omega), if_pos h2]
    · intro r
      constructor
      · intro hr
        exact ⟨hr, fun hlt => absurd h2 (by omega)⟩
      · intro hr
        exact hr.1
    · intro r hr _
      exact hr
    · intro _ r hr _
      exact hr
  · refine ⟨{ o with inner := { o.inner with
        last_cleanup_ts := o.read_mark.done_until,
        committed_txns := o.inner.committed_txns.filter
          (fun txn => decide (o.read_mark.done_until < txn.ts)) } }, ?_, ?_, ?_, ?_⟩
    · rw [cleanup_eq, if_neg (by omega), if_neg h2]
    · intro r
      show r ∈ o.inner.committed_txns.filter
          (fun txn => decide (o.read_mark.done_until < txn.ts)) ↔ _
      rw [List.mem_filter]
      constructor
      · rintro ⟨hr, hd⟩
        exact ⟨hr, fun _ => by simpa using hd⟩
      · rintro ⟨hr, himp⟩
        exact ⟨hr, by simpa using himp (by omega)⟩
    · intro r hr hlt
      show r ∈ o.inner.committed_txns.filter
          (fun txn => decide (o.read_mark.done_until < txn.ts))
      rw [List.mem_filter]
      exact ⟨hr, by simpa using hlt⟩
    · intro hpin r hr hts
      have hdu : o.read_mark.done_until ≤ 2 := by
        have := WaterMark.done_until_le_of_pending o.read_mark 3 hpin
        omega
      show r ∈ o.inner.committed_txns.filter
          (fun txn => decide (o.read_mark.done_until < txn.ts))
      rw [List.mem_filter]
      refine ⟨hr, ?_⟩
      have hlt : o.read_mark.done_until < r.ts := by
        rcases hts with h4 | h5 | h6 <;> omega
      simpa using hlt

/-- A concrete oracle with a reader pinned at 3 and commits at 4, 5, 6. -/
def oraclePinned : Oracle Unit :=
  ⟨⟨7, 0, [⟨4, ()⟩, ⟨5, ()⟩, ⟨6, ()⟩]⟩, ⟨[3], []⟩, ⟨[], []⟩⟩

/-- Witness for C3 at the pinned-reader oracle. -/
theorem cleanup_eviction_policy_witness :
    oraclePinned.inner.last_cleanup_ts ≤ oraclePinned.read_mark.done_until ∧
    (∃ o', oraclePinned.cleanup_committed_transactions true = some o' ∧
      (∀ r : CommittedTxn Unit, r ∈ o'.inner.committed_txns ↔
        (r ∈ oraclePinned.inner.committed_txns ∧
          (oraclePinned.inner.last_cleanup_ts < oraclePinned.read_mark.done_until →
            oraclePinned.read_mark.done_until < r.ts))) ∧
      (∀ r ∈ oraclePinned.inner.committed_txns,
        oraclePinned.read_mark.done_until < r.ts → r ∈ o'.inner.committed_txns) ∧
      (oraclePinned.read_mark.donCt 3 < oraclePinned.read_mark.begCt 3 →
        ∀ r ∈ oraclePinned.inner.committed_txns, (r.ts = 4 ∨ r.ts = 5 ∨ r.ts = 6) →
          r ∈ o'.inner.committed_txns)) :=
  ⟨by decide, cleanup_eviction_policy oraclePinned (by decide)⟩

/-- C6 (amended): in every state reachable from an Oracle constructed with a
positive starting counter, no operation makes either source assertion fail:
`assert!(ts >= last_cleanup_ts)` at allocation and
`assert!(max_read_ts >= last_cleanup_ts)` in cleanup both hold, so
`stepOracle` never returns the panic value `none`. -/
theorem oracle_assertions_hold {C : Type} (hc : C → C → Bool) (n0 : Nat) (h : 1 ≤ n0)
    (o : Oracle C) (hr : ReachableOracle hc n0 o) (op : OracleOp C) :
    stepOracle hc o op ≠ none := by
  have hinv : OracleInv o := by
    induction hr with
    | init => exact inv_new n0 h
    | step hpr hst ih => exact inv_step ih hst
  exact inv_no_panic hinv op

/-- Witness for the amended C6: the freshly constructed oracle with counter 1
is reachable and `read_ts` does not panic there. -/
theorem oracle_assertions_hold_witness :
    (1 : Nat) ≤ 1 ∧
    stepOracle noopHasConflict (Oracle.new Unit 1) OracleOp.opReadTs ≠ none :=
  ⟨le_refl 1, oracle_assertions_hold noopHasConflict 1 (le_refl 1) (Oracle.new Unit 1)
    ReachableOracle.init OracleOp.opReadTs⟩

/-- C6 counterexample to the claim as stated: from an Oracle constructed with
counter 0, `read_ts` wraps the u64 subtraction to `2^64 - 1`; committing that
transaction drives the cleanup floor to `2^64 - 1` and the allocation assert
`ts >= last_cleanup_ts` then fails with `ts = 0` — `stepOracle` returns
`none`, the model of the panic, in a state reached by the ordinary protocol. -/
theorem oracle_assertion_fails_from_zero :
    stepOracle noopHasConflict (Oracle.new Unit 0) OracleOp.opReadTs
      = some (((Oracle.new Unit 0).read_ts).2.1, none) ∧
    stepOracle noopHasConflict ((Oracle.new Unit 0).read_ts).2.1
      (OracleOp.opNewCommitTs false (2 ^ 64 - 1) ()) = none := by
  constructor
  · rfl
  · rfl

/-- C7: the read mark is released at most once per transaction: on the
successful path `done(read_ts)` is appended to `read_mark` only when the
caller's flag was false, and the flag comes back true; with the flag already
true, or on the conflict path, no `done` event is appended and a later call
with the returned flag never releases again. -/
theorem read_mark_released_at_most_once {C : Type} (hc : C → C → Bool)
    (o o' : Oracle C) (dr dr' : Bool) (rts : Nat) (fp : C)
    (res : CreateCommitTimestampResult C)
    (h : o.new_commit_ts hc dr rts fp = some (res, o', dr')) :
    (dr = true → o'.read_mark.dones = o.read_mark.dones ∧ dr' = true) ∧
    (∀ f, res = CreateCommitTimestampResult.Conflict f →
      o'.read_mark.dones = o.read_mark.dones ∧ dr' = dr) ∧
    (∀ ts, res = CreateCommitTimestampResult.Timestamp ts →
      dr' = true ∧
      o'.read_mark.dones
        = (if dr then o.read_mark.dones else o.read_mark.dones ++ [rts])) := by
  cases res with
  | Conflict f =>
    obtain ⟨hs, hf, hoo, hdd⟩ := new_commit_ts_conflict_spec h
    subst hoo
    subst hdd
    exact ⟨fun hdr => ⟨rfl, hdr⟩, fun f' _ => ⟨rfl, rfl⟩, fun ts hts => by cases hts⟩
  | Timestamp ts =>
    obtain ⟨hts, hdd, hnx, hrm, htm, hlc1, hlc2⟩ := new_commit_ts_timestamp_spec h
    subst hdd
    refine ⟨?_, ?_, ?_⟩
    · intro hdr
      subst hdr
      constructor
      · rw [hrm]
        simp
      · rfl
    · intro f hf
      cases hf
    · intro ts' hts'
      refine ⟨rfl, ?_⟩
      rw [hrm]
      cases dr <;> simp [WaterMark.wmDone]

/-- An oracle with one in-flight read at 2 and an empty committed list. -/
def oracleRead2 : Oracle Unit := ⟨⟨3, 0, []⟩, ⟨[2], []⟩, ⟨[], []⟩⟩

/-- Witness for C7: a successful commit with `done_read = false` appends
exactly one `done(2)` event and returns the flag set. -/
theorem read_mark_released_at_most_once_witness :
    (oracleRead2.new_commit_ts noopHasConflict false 2 ()
      = some (CreateCommitTimestampResult.Timestamp 3,
          ⟨⟨4, 2, [⟨3, ()⟩]⟩, ⟨[2], [2]⟩, ⟨[3], []⟩⟩, true)) ∧
    (∀ ts, (CreateCommitTimestampResult.Timestamp 3 : CreateCommitTimestampResult Unit)
        = CreateCommitTimestampResult.Timestamp ts →
      true = true ∧
      (⟨⟨4, 2, [⟨3, ()⟩]⟩, ⟨[2], [2]⟩, ⟨[3], []⟩⟩ : Oracle Unit).read_mark.dones
        = (if false then oracleRead2.read_mark.dones
           else oracleRead2.read_mark.dones ++ [2])) :=
  ⟨by decide,
   (read_mark_released_at_most_once noopHasConflict oracleRead2
     ⟨⟨4, 2, [⟨3, ()⟩]⟩, ⟨[2], [2]⟩, ⟨[3], []⟩⟩ false true 2 ()
     (CreateCommitTimestampResult.Timestamp 3) (by decide)).2.2⟩

/-- C8 evidence: with the no-op checker that never reports a conflict, two
successfully committed transactions still push their records — the retained
`committed_txns` list grows to length 2, because the source pushes the record
unconditionally (no detect-conflicts guard around the push, and the
`detect_conflicts` parameter of cleanup is hard-coded to `true`). -/
theorem committed_txns_grow_with_noop_checker :
    (runOps noopHasConflict (Oracle.new Unit 1)
      [OracleOp.opNewCommitTs true 0 (), OracleOp.opNewCommitTs true 0 ()]
      ).1.inner.committed_txns.length = 2 := by decide

/-- C9: the keyspace sequence counter never decreases under `open_partition`;
opening an uncached partition raises it with `fetch_max` to at least the
tree's recovered next sequence number; and `Keyspace::recover` initializes
the counter to the default 0 with an empty partition map, consulting no
partition. -/
theorem keyspace_seqno_properties :
    (∀ (ks : KeyspaceInner) (nm : String) (t : LsmTree),
      ks.seqno ≤ (Keyspace.open_partition ks nm t).1.seqno) ∧
    (∀ (ks : KeyspaceInner) (nm : String) (t : LsmTree),
      ks.partitions.lookup nm = none →
        t.next_seqno ≤ (Keyspace.open_partition ks nm t).1.seqno) ∧
    Keyspace.recover = { partitions := [], seqno := 0 } := by
  refine ⟨?_, ?_, rfl⟩
  · intro ks nm t
    unfold Keyspace.open_partition
    cases hl : ks.partitions.lookup nm with
    | none =>
      simp only [hl]
      exact le_max_left _ _
    | some tr =>
      simp only [hl]
      exact le_refl _
  · intro ks nm t hl
    unfold Keyspace.open_partition
    simp only [hl]
    exact le_max_right _ _

/-- Witness for C9: opening partition p1 on an empty keyspace with a tree
reporting next sequence number 7 raises the counter to at least 7. -/
theorem keyspace_seqno_properties_witness :
    (KeyspaceInner.mk [] 0).partitions.lookup ("p1") = none ∧
    (LsmTree.mk 7).next_seqno
      ≤ (Keyspace.open_partition ⟨[], 0⟩ ("p1") ⟨7⟩).1.seqno :=
  ⟨by decide, keyspace_seqno_properties.2.1 ⟨[], 0⟩ ("p1") ⟨7⟩ (by decide)⟩
